import Mathlib

/-!
Verification of the das_memory_pro storage/encryption core.

The Python sources are embedded shallowly:
* bytes and byte strings are `List Nat` (Python 2 `str` is a byte string;
  `ord`/`chr` round through byte values),
* the XOR stream cipher `xor.cipher` / `xor.sxor` become pure functions,
* file contents are `List Nat` with explicit positions,
* the priority queue's heap array is a `List Nat` whose index 0 is an unused
  dummy slot, exactly as in the source.

Loops are rendered as structural recursions; where the Python loop has a
non-structural measure the recursion carries an explicit bound (`fuel`) that
is always chosen at the call site to be at least the loop's iteration count,
so the embedded function agrees with the loop on every input.
-/

/-! ### xor.py: sxor and cipher -/

/-- Embedding of `xor.sxor`'s while loop.  The loop walks the plaintext with
index `i` and a key cursor `n` that is reset to `0` whenever it reaches
`len(key)`; each output byte is `plaintext[i] XOR key[n]`.  The cursor
argument here is the value of `n` at the start of the iteration, before the
reset check. -/
def sxorAux (key : List Nat) : List Nat → Nat → List Nat
  | [], _ => []
  | p :: ps, n =>
    let m := if key.length ≤ n then 0 else n
    (p ^^^ key.getD m 0) :: sxorAux key ps (m + 1)

/-- Embedding of `xor.sxor`: cyclic XOR of `plaintext` with `key`
(cycle length = `len(key)`). -/
def sxor (plaintext key : List Nat) : List Nat := sxorAux key plaintext 0

/-- Embedding of `xor.cipher`: the key is first expanded to `k * len(txt)`
(string repetition); then for round `i = 1 .. len(txt)-1` the buffer is
replaced by `sxor(txt, kexp[i-1 : len(txt)*i])`.  Python slicing clamps the
stop index to the list length, which `drop`/`take` reproduce. -/
def cipher (txt k : List Nat) : List Nat :=
  let kk := (List.replicate txt.length k).flatten
  (List.range' 1 (txt.length - 1)).foldl
    (fun t i => sxor t ((kk.drop (i - 1)).take (t.length * i - (i - 1)))) txt

theorem sxorAux_length (key : List Nat) :
    ∀ (p : List Nat) (n : Nat), (sxorAux key p n).length = p.length := by
  intro p
  induction p with
  | nil => intro n; rfl
  | cons x xs ih => intro n; simp [sxorAux, ih]

theorem sxor_length (p key : List Nat) : (sxor p key).length = p.length :=
  sxorAux_length key p 0

theorem sxorAux_sxorAux (key : List Nat) :
    ∀ (p : List Nat) (n : Nat), sxorAux key (sxorAux key p n) n = p := by
  intro p
  induction p with
  | nil => intro n; rfl
  | cons x xs ih =>
    intro n
    simp only [sxorAux, List.cons.injEq]
    constructor
    · rw [Nat.xor_assoc, Nat.xor_self, Nat.xor_zero]
    · exact ih _

theorem sxor_sxor (p key : List Nat) : sxor (sxor p key) key = p :=
  sxorAux_sxorAux key p 0

theorem sxorAux_comm (k1 k2 : List Nat) :
    ∀ (p : List Nat) (n1 n2 : Nat),
      sxorAux k2 (sxorAux k1 p n1) n2 = sxorAux k1 (sxorAux k2 p n2) n1 := by
  intro p
  induction p with
  | nil => intro n1 n2; rfl
  | cons x xs ih =>
    intro n1 n2
    simp only [sxorAux, List.cons.injEq]
    refine ⟨?_, ih _ _⟩
    rw [Nat.xor_assoc, Nat.xor_assoc,
      Nat.xor_comm (k1.getD (if k1.length ≤ n1 then 0 else n1) 0)]

theorem sxor_comm (p s1 s2 : List Nat) :
    sxor (sxor p s1) s2 = sxor (sxor p s2) s1 :=
  sxorAux_comm s1 s2 p 0 0

theorem foldl_sxor_comm (L : List (List Nat)) :
    ∀ (t s : List Nat), sxor (L.foldl sxor t) s = L.foldl sxor (sxor t s) := by
  induction L with
  | nil => intro t s; rfl
  | cons a L ih =>
    intro t s
    simp only [List.foldl_cons]
    rw [ih, sxor_comm]

theorem foldl_sxor_foldl_sxor (L : List (List Nat)) :
    ∀ t : List Nat, L.foldl sxor (L.foldl sxor t) = t := by
  induction L with
  | nil => intro t; rfl
  | cons a L ih =>
    intro t
    simp only [List.foldl_cons]
    rw [foldl_sxor_comm, sxor_sxor, ih]

theorem foldl_sxor_length (L : List (List Nat)) :
    ∀ t : List Nat, (L.foldl sxor t).length = t.length := by
  induction L with
  | nil => intro t; rfl
  | cons a L ih => intro t; rw [List.foldl_cons, ih, sxor_length]

/-- The fixed key schedule of `cipher` for a buffer of length `n`: round `i`
uses the slice `kexp[i-1 : n*i]` of the expanded key, a function of `n` and
`k` only. -/
def cipherMasks (n : Nat) (k : List Nat) : List (List Nat) :=
  (List.range' 1 (n - 1)).map
    (fun i => ((((List.replicate n k).flatten).drop (i - 1)).take (n * i - (i - 1))))

theorem cipher_eq_foldl_masks (txt k : List Nat) :
    cipher txt k = (cipherMasks txt.length k).foldl sxor txt := by
  simp only [cipher, cipherMasks]
  generalize hn : txt.length = n
  have main : ∀ (L : List Nat) (t : List Nat), t.length = n →
      L.foldl (fun t i =>
        sxor t ((((List.replicate n k).flatten).drop (i - 1)).take (t.length * i - (i - 1)))) t
      = (L.map (fun i =>
          (((List.replicate n k).flatten).drop (i - 1)).take (n * i - (i - 1)))).foldl sxor t := by
    intro L
    induction L with
    | nil => intro t _; rfl
    | cons a L ih =>
      intro t ht
      simp only [List.foldl_cons, List.map_cons, ht]
      exact ih _ (by rw [sxor_length, ht])
  exact main _ txt hn

theorem cipher_length (txt k : List Nat) : (cipher txt k).length = txt.length := by
  rw [cipher_eq_foldl_masks, foldl_sxor_length]

/-- Helper round-trip fact: a double application of `cipher` restores the
buffer, because both applications replay the identical mask schedule
(`cipherMasks` depends only on the buffer length, which `cipher` preserves)
and every round is an involutive XOR. -/
theorem cipher_cipher (b k : List Nat) : cipher (cipher b k) k = b := by
  rw [cipher_eq_foldl_masks (cipher b k) k, cipher_length,
    cipher_eq_foldl_masks b k, foldl_sxor_foldl_sxor]

/-- C1: the stream cipher is self-inverse: for every byte buffer `b` and every
non-empty key `k`, `cipher(cipher(b,k),k) == b`; and for buffers of length at
most 1 the transform is the identity (the round loop `xrange(1, len(txt))` is
empty). -/
theorem cipher_self_inverse (b k : List Nat) (_hk : k ≠ []) :
    cipher (cipher b k) k = b ∧ (b.length ≤ 1 → cipher b k = b) := by
  refine ⟨cipher_cipher b k, fun hb => ?_⟩
  simp only [cipher]
  have h1 : b.length - 1 = 0 := by omega
  rw [h1]
  rfl

theorem cipher_self_inverse_witness :
    ([3, 4] : List Nat) ≠ [] ∧
      (cipher (cipher [5] [3, 4]) [3, 4] = [5] ∧
        (([5] : List Nat).length ≤ 1 → cipher [5] [3, 4] = [5])) :=
  ⟨by decide, cipher_self_inverse [5] [3, 4] (by decide)⟩

/-! ### file_controller.py: Corpora on an EncryptedFile

`EncryptedFile.write` passes each written chunk through `xor.cipher` with the
file key, and `EncryptedFile.read` passes each read chunk back through the
same function.  `Corpora._write` switches the resource to append mode (the
stream is positioned at end of file, so `tell()` is the file length), records
`tell()` as the topic's offset via `NewTopic.setOffset` (which also computes
`endset = offset + len(corpus)`), and appends the encrypted corpus.
`Corpora.getCorpus` seeks to `offset` and reads `endset - offset` bytes,
which are decrypted on the way out.  The backing file is modelled as the
list of (encrypted) bytes on disk. -/

namespace Corpora

/-- Embedding of `Corpora._write` together with `NewTopic.setOffset`: returns
the new file contents and the `(offset, endset)` pair minted for the topic. -/
def write (file corpus key : List Nat) : List Nat × Nat × Nat :=
  let offset := file.length
  (file ++ cipher corpus key, offset, offset + corpus.length)

/-- Embedding of `Corpora.getCorpus`: seek to `offset`, read
`endset - offset` bytes, decrypting through the encrypted-file layer. -/
def getCorpus (file : List Nat) (offset endset : Nat) (key : List Nat) : List Nat :=
  cipher ((file.drop offset).take (endset - offset)) key

end Corpora

/-- C4: for a topic freshly written by `Corpora._write`, the minted pointer
satisfies `endset = offset + length(body)`, and `getCorpus(offset, endset)`
returns exactly the body bytes originally given (the append-mode `tell()`
yields the file length, and the encrypted-file layer's decrypt of the stored
chunk restores the plaintext). -/
theorem corpora_write_getCorpus (file body key : List Nat) (_hkey : key ≠ []) :
    (Corpora.write file body key).2.2
        = (Corpora.write file body key).2.1 + body.length ∧
      Corpora.getCorpus (Corpora.write file body key).1
        (Corpora.write file body key).2.1 (Corpora.write file body key).2.2 key
        = body := by
  refine ⟨rfl, ?_⟩
  simp only [Corpora.write, Corpora.getCorpus]
  rw [List.drop_left, Nat.add_sub_cancel_left]
  rw [show body.length = (cipher body key).length from (cipher_length body key).symm,
    List.take_length, cipher_cipher]

theorem corpora_write_getCorpus_witness :
    ([9] : List Nat) ≠ [] ∧
      ((Corpora.write [1, 2] [10, 20, 30] [9]).2.2
          = (Corpora.write [1, 2] [10, 20, 30] [9]).2.1 + ([10, 20, 30] : List Nat).length ∧
        Corpora.getCorpus (Corpora.write [1, 2] [10, 20, 30] [9]).1
          (Corpora.write [1, 2] [10, 20, 30] [9]).2.1
          (Corpora.write [1, 2] [10, 20, 30] [9]).2.2 [9]
          = [10, 20, 30]) :=
  ⟨by decide, corpora_write_getCorpus [1, 2] [10, 20, 30] [9] (by decide)⟩

/-! ### file_controller.py: Environment.setup

`Environment.setup` opens `.index` and `.corpora` as `EncryptedFile`s in the
default read mode; if the open raises `IOError` (the file is absent) it falls
back to opening the same path in write mode, which creates the file.  A file
system is modelled by which of the two files exist; an open handle by its
mode plus whether the file exists after the call. -/

inductive FCMode where
  | read
  | write
deriving DecidableEq, Repr

structure FileSystem where
  hasIndex : Bool
  hasCorpora : Bool

/-- Opening an `EncryptedFile` on a path: read mode on an absent file raises
`IOError`; write mode always succeeds and creates the file. -/
def openEncryptedFile (present : Bool) (mode : FCMode) : Except Unit (FCMode × Bool) :=
  match mode with
  | .read => if present then .ok (.read, present) else .error ()
  | .write => .ok (.write, true)

namespace Environment

/-- The `try: open(read) / except IOError: open(write)` pattern used for each
of the two files in `Environment.setup`. -/
def setupFile (present : Bool) : Except Unit (FCMode × Bool) :=
  match openEncryptedFile present .read with
  | .ok f => .ok f
  | .error _ => openEncryptedFile present .write

/-- Embedding of `Environment.setup`: set up the index file, then the corpora
file; an error that escaped both fallbacks would propagate to the caller. -/
def setup (fs : FileSystem) : Except Unit ((FCMode × Bool) × (FCMode × Bool)) := do
  let i ← setupFile fs.hasIndex
  let c ← setupFile fs.hasCorpora
  return (i, c)

end Environment

/-- C9: `Environment.setup` never surfaces the open failure: for every file
system it returns successfully; a file that is absent is recovered locally by
reopening the path in write mode (creating it), and a file that is present is
opened read mode and that handle is used as-is. -/
theorem environment_setup_recovers (fs : FileSystem) :
    Environment.setup fs
      = .ok ((if fs.hasIndex then (FCMode.read, true) else (FCMode.write, true)),
          (if fs.hasCorpora then (FCMode.read, true) else (FCMode.write, true))) := by
  rcases fs with ⟨hi, hc⟩
  cases hi <;> cases hc <;> rfl

/-! ### file_controller.py: Index record reads

An `.index` file is a flat sequence of records
`name (32 bytes) | offset (6 chars) | endset (6 chars)`.  `Index._nextEntry`
performs three fixed-width `read` calls and, when
`if name and offset and endset:` holds — i.e. when all three reads returned a
*nonempty* string (a read at end-of-file returns the empty string) —
constructs `FindTopic(name, offset, endset)`, whose initializer parses the
offset and endset fields with `int(raw, Index.OFFSET_BASE)`; that parse
raises `ValueError` on a string that is not a base-16 integer literal, and
the exception propagates out of `_nextEntry` (the spec's CorruptIndex path).
The file is a byte list, the stream position an explicit cursor, and the
propagating parse failure an `Except.error`. -/

/-- Python 2 `int(s, 16)` treats these six ASCII characters as strippable
whitespace. -/
def isPySpace (c : Nat) : Bool :=
  c = 32 ∨ c = 9 ∨ c = 10 ∨ c = 11 ∨ c = 12 ∨ c = 13

/-- The value of one hexadecimal digit character (`0-9`, `a-f`, `A-F`). -/
def hexDigitVal (c : Nat) : Option Nat :=
  if 48 ≤ c ∧ c ≤ 57 then some (c - 48)
  else if 97 ≤ c ∧ c ≤ 102 then some (c - 87)
  else if 65 ≤ c ∧ c ≤ 70 then some (c - 55)
  else none

/-- Accumulate a base-16 digit string; `none` on any non-digit character. -/
def parseHexDigits : List Nat → Nat → Option Nat
  | [], acc => some acc
  | c :: cs, acc =>
    match hexDigitVal c with
    | some v => parseHexDigits cs (acc * 16 + v)
    | none => none

/-- Strip leading and trailing Python whitespace. -/
def pyStrip (s : List Nat) : List Nat :=
  ((s.dropWhile isPySpace).reverse.dropWhile isPySpace).reverse

/-- Consume an optional `+` or `-` sign, returning the sign factor. -/
def pyStripSign : List Nat → Int × List Nat
  | 43 :: rest => (1, rest)
  | 45 :: rest => (-1, rest)
  | s => (1, s)

/-- Consume an optional `0x` / `0X` prefix (allowed by `int(s, 16)`). -/
def pyStripHexPrefix : List Nat → List Nat
  | 48 :: 120 :: rest => rest
  | 48 :: 88 :: rest => rest
  | s => s

/-- Model of Python 2 `int(s, 16)`: optional surrounding whitespace, optional
sign, optional `0x` prefix, then one or more hex digits; `none` models a
`ValueError` for anything else (the empty string included). -/
def pyIntBase16 (s : List Nat) : Option Int :=
  let s1 := pyStripSign (pyStrip s)
  let s2 := pyStripHexPrefix s1.2
  if s2 = [] then none
  else (parseHexDigits s2 0).map (fun v => s1.1 * (v : Int))

namespace Index

/-- A bounded `read(n)` on a file: return up to `n` bytes from the current
position and the advanced position. -/
def readBytes (file : List Nat) (pos n : Nat) : List Nat × Nat :=
  let chunk := (file.drop pos).take n
  (chunk, pos + chunk.length)

/-- Embedding of `Index._nextEntry`: read the three fixed-width fields
(name 32, offset 6, endset 6); when all three reads were nonempty, build the
`FindTopic` — raw name plus the offset and endset parsed by
`int(raw, 16)` in `FindTopic.__init__`, whose `ValueError` on a non-hex
field propagates (`Except.error`); when some read was empty, return no
record (`none`).  The second component is the new stream position. -/
def nextEntry (file : List Nat) (pos : Nat) :
    Except Unit (Option (List Nat × Int × Int)) × Nat :=
  let r1 := readBytes file pos 32
  let r2 := readBytes file r1.2 6
  let r3 := readBytes file r2.2 6
  (if r1.1 ≠ [] ∧ r2.1 ≠ [] ∧ r3.1 ≠ [] then
    match pyIntBase16 r2.1, pyIntBase16 r3.1 with
    | some o, some e => .ok (some (r1.1, o, e))
    | _, _ => .error ()
  else .ok none, r3.2)

end Index

/-- Counterexample to C5 as stated: on a trailing fragment of 39 bytes of
ASCII `'0'` (a full 32-byte name, a full 6-char offset, but only 1 byte left
for the 6-char endset read) `Index._nextEntry` still returns a record — the
guard `if name and offset and endset:` only tests nonemptiness, not full
width, and the short fields parse — so a short partial trailing read does
NOT always produce "no record". -/
theorem nextEntry_short_trailing_read_returns_record :
    Index.nextEntry (List.replicate 39 48) 0
      = (Except.ok (some (List.replicate 32 48, 0, 0)), 39) := by
  rfl

/-- A short nonempty trailing read is not always silent either: 39 bytes of
`0xFF` pass the nonemptiness guard but the offset field is not a base-16
literal, so `FindTopic.__init__`'s `int(raw, 16)` raises and the error
propagates instead of being treated as end-of-data. -/
theorem nextEntry_nonhex_fragment_errors :
    Index.nextEntry (List.replicate 39 255) 0 = (Except.error (), 39) := by
  rfl

/-- C5 (amended): `Index._nextEntry` returns a record only if all three
fixed-width reads yield nonempty data, which requires at least 39 of the 44
record bytes to remain; and whenever fewer than 39 bytes remain, some read
comes back empty and the partial trailing data is silently treated as
end-of-data (no record and no error).  A short but *nonempty* trailing read
(39 to 43 remaining bytes) is not discarded, contrary to the claim: it
yields a truncated record when the cut fields parse as base-16 integers, and
a propagating `ValueError` when they do not. -/
theorem nextEntry_record_conditions (file : List Nat) (pos : Nat) :
    (file.length < pos + 39 → (Index.nextEntry file pos).1 = Except.ok none) ∧
      (∀ (name : List Nat) (offset endset : Int),
        (Index.nextEntry file pos).1 = Except.ok (some (name, offset, endset)) →
          pos + 39 ≤ file.length) := by
  have hne : ∀ p n : Nat,
      ((file.drop p).take n ≠ []) ↔ (0 < min n (file.length - p)) := by
    intro p n
    rw [← List.length_pos, List.length_take, List.length_drop]
  simp only [Index.nextEntry, Index.readBytes, List.length_take, List.length_drop]
  split
  case isTrue h =>
    rcases h with ⟨h1, h2, h3⟩
    rw [hne] at h1 h2 h3
    constructor
    · intro hlen
      exact absurd hlen (by omega)
    · intro name offset endset _
      omega
  case isFalse h =>
    constructor
    · intro _
      rfl
    · intro name offset endset heq
      simp at heq

theorem nextEntry_record_conditions_witness :
    ([1, 2, 3] : List Nat).length < 0 + 39 ∧
      (Index.nextEntry [1, 2, 3] 0).1 = Except.ok none :=
  ⟨by decide, (nextEntry_record_conditions [1, 2, 3] 0).1 (by decide)⟩

/-! ### file_controller.py: Index.insertEntries (two-pointer merge)

`Index.insertEntries` walks the supplied iterable of `NewTopic`s with the
cursor `j` over the cached `oldEntries`: for each new entry `i` it first
writes every remaining old entry whose `name` is lexicographically smaller
than `i.name`, then writes `i`; once the new entries are exhausted it flushes
the leftover old entries.  Python 2 compares byte strings lexicographically,
which is the `List Nat` lexicographic order.  A record (`FindTopic` read back
from the index, or `NewTopic` headed for it) carries a name and the two
pointer fields. -/

structure Topic where
  name : List Nat
  offset : Nat
  endset : Nat
deriving DecidableEq, Repr

namespace Index

/-- Embedding of `Index.insertEntries`: the output list is the sequence of
records written to the `.index` file, in write order.  The inner while loop
`while j < len(oldEntries) and oldEntries[j].name < i.name` is the
`takeWhile`/`dropWhile` split of the remaining old entries. -/
def insertEntries (oldEntries : List Topic) : List Topic → List Topic
  | [] => oldEntries
  | i :: rest =>
    oldEntries.takeWhile (fun o => decide (o.name < i.name)) ++
      i :: insertEntries (oldEntries.dropWhile (fun o => decide (o.name < i.name))) rest

end Index

/-- Record comparison used by the index file invariant: ascending by name. -/
def topicLE (a b : Topic) : Prop := a.name ≤ b.name

instance : ∀ a b : Topic, Decidable (topicLE a b) := by
  intro a b
  unfold topicLE
  infer_instance

theorem dropWhile_head_false {α : Type} (p : α → Bool) :
    ∀ (l : List α) (d : α) (ds : List α), l.dropWhile p = d :: ds → p d = false := by
  intro l
  induction l with
  | nil => intro d ds h; cases h
  | cons x xs ih =>
    intro d ds h
    rw [List.dropWhile_cons] at h
    cases hpx : p x with
    | true => rw [hpx] at h; simp only [if_pos] at h; exact ih _ _ h
    | false =>
      rw [hpx] at h
      simp only [Bool.false_eq_true, if_false, List.cons.injEq] at h
      rw [← h.1]
      exact hpx

theorem insertEntries_perm (new : List Topic) :
    ∀ old : List Topic, (Index.insertEntries old new).Perm (old ++ new) := by
  induction new with
  | nil => intro old; simp [Index.insertEntries]
  | cons i rest ih =>
    intro old
    simp only [Index.insertEntries]
    have h1 : (i :: Index.insertEntries
          (old.dropWhile (fun o => decide (o.name < i.name))) rest).Perm
        (old.dropWhile (fun o => decide (o.name < i.name)) ++ i :: rest) :=
      ((ih _).cons i).trans List.perm_middle.symm
    have h3 := List.Perm.append_left
      (old.takeWhile (fun o => decide (o.name < i.name))) h1
    have h4 : old ++ i :: rest
        = old.takeWhile (fun o => decide (o.name < i.name)) ++
            (old.dropWhile (fun o => decide (o.name < i.name)) ++ i :: rest) := by
      rw [← List.append_assoc, List.takeWhile_append_dropWhile]
    rw [h4]
    exact h3

theorem insertEntries_sorted (new : List Topic) :
    ∀ old : List Topic, List.Sorted topicLE old → List.Sorted topicLE new →
      List.Sorted topicLE (Index.insertEntries old new) := by
  induction new with
  | nil => intro old hold _; exact hold
  | cons i rest ih =>
    intro old hold hnew
    simp only [Index.insertEntries]
    have hiLErest : ∀ b ∈ rest, topicLE i b := (List.sorted_cons.mp hnew).1
    have hrest : List.Sorted topicLE rest := (List.sorted_cons.mp hnew).2
    have htake : List.Sorted topicLE
        (old.takeWhile (fun o => decide (o.name < i.name))) :=
      hold.sublist (List.takeWhile_sublist _)
    have hdrop : List.Sorted topicLE
        (old.dropWhile (fun o => decide (o.name < i.name))) :=
      hold.sublist (List.dropWhile_sublist _)
    -- every leftover old entry has a name at least `i.name`
    have hdrop_ge : ∀ o ∈ old.dropWhile (fun o => decide (o.name < i.name)),
        i.name ≤ o.name := by
      intro o ho
      rcases hd : old.dropWhile (fun o => decide (o.name < i.name)) with _ | ⟨d, ds⟩
      · rw [hd] at ho; cases ho
      · have hdnot := dropWhile_head_false _ old d ds hd
        have hdge : i.name ≤ d.name := le_of_not_lt (of_decide_eq_false hdnot)
        rw [hd] at ho
        rcases List.mem_cons.mp ho with h | h
        · rw [h]; exact hdge
        · have hds : List.Sorted topicLE (d :: ds) := hd ▸ hdrop
          exact le_trans hdge ((List.sorted_cons.mp hds).1 o h)
    have hrec : List.Sorted topicLE (Index.insertEntries
        (old.dropWhile (fun o => decide (o.name < i.name))) rest) :=
      ih _ hdrop hrest
    -- elements of the recursive merge come from the leftovers or from `rest`
    have hrec_mem : ∀ b ∈ Index.insertEntries
        (old.dropWhile (fun o => decide (o.name < i.name))) rest, topicLE i b := by
      intro b hb
      have := (insertEntries_perm rest _).mem_iff.mp hb
      rcases List.mem_append.mp this with h | h
      · exact hdrop_ge b h
      · exact hiLErest b h
    rw [List.Sorted, List.pairwise_append]
    refine ⟨htake, List.sorted_cons.mpr ⟨hrec_mem, hrec⟩, ?_⟩
    intro a ha b hb
    have hpa := List.mem_takeWhile_imp ha
    have haLt : a.name < i.name := of_decide_eq_true hpa
    rcases List.mem_cons.mp hb with h | h
    · rw [h]; exact le_of_lt haLt
    · exact le_trans (le_of_lt haLt) (hrec_mem b h)

/-- C2: for every existing index whose entries are sorted ascending by name
and every batch of new records already sorted ascending by name,
`Index.insertEntries` writes out a sequence that is sorted ascending by name
and whose multiset of records is exactly the union of the existing entries
and the new batch (duplicates preserved, not deduplicated). -/
theorem insertEntries_sorted_union (old new : List Topic)
    (hold : List.Sorted topicLE old) (hnew : List.Sorted topicLE new) :
    List.Sorted topicLE (Index.insertEntries old new) ∧
      (Index.insertEntries old new).Perm (old ++ new) :=
  ⟨insertEntries_sorted new old hold hnew, insertEntries_perm new old⟩

theorem insertEntries_sorted_union_witness :
    List.Sorted topicLE [⟨[1], 0, 0⟩, ⟨[2], 2, 3⟩] ∧
      List.Sorted topicLE [⟨[1], 5, 6⟩, ⟨[3], 7, 8⟩] ∧
      (List.Sorted topicLE
          (Index.insertEntries [⟨[1], 0, 0⟩, ⟨[2], 2, 3⟩] [⟨[1], 5, 6⟩, ⟨[3], 7, 8⟩]) ∧
        (Index.insertEntries [⟨[1], 0, 0⟩, ⟨[2], 2, 3⟩]
            [⟨[1], 5, 6⟩, ⟨[3], 7, 8⟩]).Perm
          ([⟨[1], 0, 0⟩, ⟨[2], 2, 3⟩] ++ [⟨[1], 5, 6⟩, ⟨[3], 7, 8⟩])) :=
  ⟨by decide, by decide,
    insertEntries_sorted_union [⟨[1], 0, 0⟩, ⟨[2], 2, 3⟩] [⟨[1], 5, 6⟩, ⟨[3], 7, 8⟩]
      (by decide) (by decide)⟩

/-! ### das_memory_pro_beta.py: SearchMenu.search

`SearchMenu.search` binary-searches `self.topics` (the sorted index entries)
for a name matching the query, then scans linearly in both directions,
appending every contiguous further match and stopping each direction at the
first non-match.  `re.match(query, name)` anchors the pattern at the start of
the name; for the metacharacter-free queries of the spec scenario it is
exactly a prefix test.  The upward scan is `for i in xrange(mid-1, 0, -1)`,
which visits indices `mid-1 .. 1` — index 0 is never visited.  The recursion
halves `[left, right)`, so `len(topics) + 1` rounds of fuel always exceed the
recursion depth. -/

namespace SearchMenu

/-- Model of `re.match(query, name)` for metacharacter-free patterns: the
match is anchored at the start of the name, i.e. a prefix test. -/
def reMatch (query name : List Nat) : Bool := query.isPrefixOf name

/-- Embedding of `SearchMenu.search` (the module-level `search` in
file_controller.py is the same algorithm): binary search plus outward linear
scans; the result list is `searchResults` in append order. -/
def searchAux (topics : List (List Nat)) (query : List Nat) :
    Nat → Nat → Nat → List (List Nat)
  | 0, _, _ => []
  | fuel + 1, left, right =>
    if left ≥ right ∨ query.length = 0 then []
    else
      let mid := (left + right) / 2
      if reMatch query (topics.getD mid []) then
        topics.getD mid [] ::
          (((List.range' 1 (mid - 1)).reverse.takeWhile
              (fun i => reMatch query (topics.getD i []))).map
            (fun i => topics.getD i []) ++
          ((List.range' (mid + 1) (topics.length - (mid + 1))).takeWhile
              (fun i => reMatch query (topics.getD i []))).map
            (fun i => topics.getD i []))
      else if decide (topics.getD mid [] < query) then
        searchAux topics query fuel (mid + 1) right
      else
        searchAux topics query fuel left mid

/-- `search(query)` with the default cursors `left=0`, `right=len(topics)`. -/
def search (topics : List (List Nat)) (query : List Nat) : List (List Nat) :=
  searchAux topics query (topics.length + 1) 0 topics.length

end SearchMenu

/-- C3, evaluated on the code: with the sorted names
`["car", "cat", "dog"]` stored (here as byte lists), `search("ca")` returns
only `["cat"]` — NOT `{"car", "cat"}` as the claim states — because the
binary search lands on `mid = 1` ("cat") and the upward scan
`for i in xrange(mid-1, 0, -1)` is empty (it stops before index 0, so "car"
is never examined); `search("do")` returns `["dog"]` and `search("x")`
returns `[]`, as claimed. -/
theorem search_scenario_b_eval :
    SearchMenu.search [[99, 97, 114], [99, 97, 116], [100, 111, 103]] [99, 97]
        = [[99, 97, 116]] ∧
      SearchMenu.search [[99, 97, 114], [99, 97, 116], [100, 111, 103]] [100, 111]
        = [[100, 111, 103]] ∧
      SearchMenu.search [[99, 97, 114], [99, 97, 116], [100, 111, 103]] [120]
        = [] := by
  decide

/-! ### file_controller.py: Index._write fixed-width hex formatting

`Index._write` serializes `offset` and `endset` with
`"{0:0{1}x}".format(value, width)` (width 6).  Python's format specification
pads the hexadecimal representation on the left with zeros up to a *minimum*
width; it never truncates or wraps, so a value needing more digits simply
produces a longer string.  Digits are modelled by their numeric values. -/

/-- Hex digit list (most significant first) of a positive value; the `fuel`
bound is the value itself, which strictly dominates the number of
divisions by 16. -/
def hexDigitsAux : Nat → Nat → List Nat
  | 0, _ => []
  | fuel + 1, v => if v = 0 then [] else hexDigitsAux fuel (v / 16) ++ [v % 16]

/-- The digits of `"{:x}".format(v)` (with `hexDigits 0 = [0]`, as Python
formats zero as "0"). -/
def hexDigits (v : Nat) : List Nat :=
  if v = 0 then [0] else hexDigitsAux v v

/-- Embedding of `"{0:0{1}x}".format(v, width)`: left-pad the hex digits with
zeros up to `width`; a representation longer than `width` is kept whole. -/
def formatHex (v width : Nat) : List Nat :=
  List.replicate (width - (hexDigits v).length) 0 ++ hexDigits v

theorem hexDigitsAux_length_ge (k : Nat) :
    ∀ (fuel v : Nat), v ≤ fuel → 16 ^ k ≤ v → k + 1 ≤ (hexDigitsAux fuel v).length := by
  induction k with
  | zero =>
    intro fuel v hfuel hv
    rw [pow_zero] at hv
    cases fuel with
    | zero => omega
    | succ fuel =>
      have hv0 : v ≠ 0 := by omega
      simp [hexDigitsAux, hv0]
  | succ k ih =>
    intro fuel v hfuel hv
    rw [pow_succ] at hv
    have hpk : 0 < (16 : Nat) ^ k := Nat.pos_pow_of_pos k (by omega)
    have h16 : 16 ≤ (16 : Nat) ^ k * 16 := by
      calc (16 : Nat) = 1 * 16 := by ring
        _ ≤ 16 ^ k * 16 := Nat.mul_le_mul_right 16 hpk
    have hv16 : 16 ≤ v := le_trans h16 hv
    cases fuel with
    | zero => omega
    | succ fuel =>
      have hv0 : v ≠ 0 := by omega
      simp only [hexDigitsAux, hv0, if_false, List.length_append,
        List.length_cons, List.length_nil]
      have hdiv : 16 ^ k ≤ v / 16 := by
        rw [Nat.le_div_iff_mul_le (by omega)]
        exact hv
      have hfuel' : v / 16 ≤ fuel := by
        have := Nat.div_lt_self (show 0 < v by omega) (show 1 < 16 by omega)
        omega
      have := ih fuel (v / 16) hfuel' hdiv
      omega

theorem hexDigitsAux_length_le :
    ∀ (fuel v k : Nat), v < 16 ^ k → (hexDigitsAux fuel v).length ≤ k := by
  intro fuel
  induction fuel with
  | zero => intro v k _; simp [hexDigitsAux]
  | succ fuel ih =>
    intro v k hv
    by_cases hv0 : v = 0
    · simp [hexDigitsAux, hv0]
    · simp only [hexDigitsAux, hv0, if_false, List.length_append,
        List.length_cons, List.length_nil]
      match k with
      | 0 => omega
      | k + 1 =>
        have hdiv : v / 16 < 16 ^ k := by
          rw [Nat.div_lt_iff_lt_mul (by omega)]
          have : (16 : Nat) ^ (k + 1) = 16 ^ k * 16 := by ring
          omega
        have := ih (v / 16) k hdiv
        omega

theorem hexDigits_length_ge (v : Nat) (h : 16 ^ 6 ≤ v) :
    7 ≤ (hexDigits v).length := by
  have hv0 : v ≠ 0 := by positivity
  rw [hexDigits, if_neg hv0]
  exact hexDigitsAux_length_ge 6 v v le_rfl h

theorem hexDigits_length_le (v : Nat) (h : v < 16 ^ 6) :
    (hexDigits v).length ≤ 6 := by
  by_cases hv0 : v = 0
  · simp [hexDigits, hv0]
  · rw [hexDigits, if_neg hv0]
    exact hexDigitsAux_length_le v v 6 h

/-- Counterexample to C8 as stated: formatting `16^6` in the 6-character
field yields SEVEN characters, not a wrapped/truncated 6-character string —
Python's minimum-width format never truncates. -/
theorem formatHex_overflow_not_truncated :
    (formatHex (16 ^ 6) 6).length = 7 := by
  decide

/-- C8 (amended): for every value below `16^6` the fixed-width hexadecimal
formatting in `Index._write` produces exactly 6 zero-padded characters, but
for every value greater than or equal to `16^6` it silently produces a
string LONGER than the 6-character field (at least 7 characters) rather than
raising an error or truncating — overflowing the record layout instead of
wrapping into it. -/
theorem formatHex_width (v : Nat) :
    (v < 16 ^ 6 → (formatHex v 6).length = 6) ∧
      (16 ^ 6 ≤ v → 7 ≤ (formatHex v 6).length) := by
  constructor
  · intro h
    have := hexDigits_length_le v h
    simp only [formatHex, List.length_append, List.length_replicate]
    omega
  · intro h
    have := hexDigits_length_ge v h
    simp only [formatHex, List.length_append, List.length_replicate]
    omega

theorem formatHex_width_witness :
    ((255 : Nat) < 16 ^ 6 → (formatHex 255 6).length = 6) ∧
      ((16 ^ 6 ≤ (255 : Nat) → 7 ≤ (formatHex 255 6).length) ∧
        (formatHex 255 6).length = 6) :=
  ⟨(formatHex_width 255).1, (formatHex_width 255).2,
    (formatHex_width 255).1 (by decide)⟩

/-! ### file_controller.py: NewTopic name padding and FindTopic.cleanName

`NewTopic.__init__` pads a short name to `Index._NAME_LENGTH = 32` bytes:
the name, then the terminator `FindTopic.NULL = "\x00"`, then
`randint(1, 0xff)` filler bytes (never the terminator).  The filler is a
parameter here, constrained as `randint` constrains it.
`FindTopic.cleanName` returns `name[:name.rfind(NULL)]` — the slice up to
the LAST occurrence of the terminator (Python `rfind` returns -1 when the
character is absent, making the slice `name[:-1]`). -/

namespace NewTopic

/-- Embedding of the name construction in `NewTopic.__init__`: truncate a
long name to 31 bytes plus the terminator, or pad a short name with the
terminator followed by filler bytes. -/
def paddedName (name filler : List Nat) : List Nat :=
  if 32 ≤ name.length then name.take 31 ++ [0]
  else name ++ [0] ++ filler

end NewTopic

namespace FindTopic

/-- Python `str.rfind` for a single byte: index of the last occurrence, or
`none` for Python's -1. -/
def rfindByte (c : Nat) : List Nat → Option Nat
  | [] => none
  | x :: xs =>
    match rfindByte c xs with
    | some i => some (i + 1)
    | none => if x = c then some 0 else none

/-- Embedding of `FindTopic.cleanName`: `self.name[:self.name.rfind(NULL)]`;
when `rfind` returns -1 the Python slice `name[:-1]` drops the last byte. -/
def cleanName (name : List Nat) : List Nat :=
  match rfindByte 0 name with
  | some i => name.take i
  | none => name.take (name.length - 1)

end FindTopic

theorem rfindByte_append_none (c : Nat) (l₁ l₂ : List Nat)
    (h : FindTopic.rfindByte c l₂ = none) :
    FindTopic.rfindByte c (l₁ ++ l₂) = FindTopic.rfindByte c l₁ := by
  induction l₁ with
  | nil => simpa using h
  | cons x xs ih =>
    simp only [List.cons_append, FindTopic.rfindByte, List.append_eq, ih]

theorem rfindByte_append_some (c i : Nat) (l₁ l₂ : List Nat)
    (h : FindTopic.rfindByte c l₂ = some i) :
    FindTopic.rfindByte c (l₁ ++ l₂) = some (l₁.length + i) := by
  induction l₁ with
  | nil => simpa using h
  | cons x xs ih =>
    simp only [List.cons_append, FindTopic.rfindByte, List.append_eq, ih,
      List.length_cons]
    congr 1
    omega

theorem rfindByte_eq_none (c : Nat) :
    ∀ l : List Nat, (∀ x ∈ l, x ≠ c) → FindTopic.rfindByte c l = none := by
  intro l
  induction l with
  | nil => intro _; rfl
  | cons x xs ih =>
    intro h
    have hx : x ≠ c := h x (List.mem_cons_self x xs)
    have hxs := ih (fun y hy => h y (List.mem_cons_of_mem x hy))
    simp [FindTopic.rfindByte, hxs, hx]

/-- C10: for every name shorter than 32 bytes, the `NewTopic` constructor
pads it to exactly 32 bytes with a terminator byte followed by random
non-terminator filler bytes (the `randint(1, 0xff)` range), and
`FindTopic.cleanName` applied to the padded name returns exactly the
original name: the filler contains no terminator, so `rfind` locates the
terminator that ends the name even if the name itself contains terminator
bytes. -/
theorem paddedName_cleanName (name filler : List Nat)
    (hname : name.length < 32)
    (hfill : filler.length = 32 - name.length - 1)
    (hrange : ∀ x ∈ filler, 1 ≤ x ∧ x ≤ 255) :
    (NewTopic.paddedName name filler).length = 32 ∧
      FindTopic.cleanName (NewTopic.paddedName name filler) = name := by
  have hpn : NewTopic.paddedName name filler = name ++ [0] ++ filler := by
    rw [NewTopic.paddedName, if_neg (by omega)]
  constructor
  · rw [hpn]
    simp only [List.length_append, List.length_cons, List.length_nil]
    omega
  · rw [hpn, FindTopic.cleanName]
    have hf : FindTopic.rfindByte 0 filler = none :=
      rfindByte_eq_none 0 filler (fun x hx => by have := hrange x hx; omega)
    have h2 : FindTopic.rfindByte 0 ([0] ++ filler) = some 0 := by
      rw [rfindByte_append_none 0 [0] filler hf]
      rfl
    have hfind : FindTopic.rfindByte 0 (name ++ [0] ++ filler)
        = some name.length := by
      rw [List.append_assoc, rfindByte_append_some 0 0 name ([0] ++ filler) h2,
        Nat.add_zero]
    rw [hfind, List.append_assoc]
    exact List.take_left name ([0] ++ filler)

theorem paddedName_cleanName_witness :
    ([97, 98] : List Nat).length < 32 ∧
      (List.replicate 29 65 : List Nat).length = 32 - ([97, 98] : List Nat).length - 1 ∧
      (∀ x ∈ (List.replicate 29 65 : List Nat), 1 ≤ x ∧ x ≤ 255) ∧
      ((NewTopic.paddedName [97, 98] (List.replicate 29 65)).length = 32 ∧
        FindTopic.cleanName (NewTopic.paddedName [97, 98] (List.replicate 29 65))
          = [97, 98]) :=
  ⟨by decide, by decide, by decide,
    paddedName_cleanName [97, 98] (List.replicate 29 65)
      (by decide) (by decide) (by decide)⟩

/-! ### priority_queue.py: the array min-heap

The heap list keeps a dummy entry at index 0 (`self.heap = [None,]`) so that
the children of node `i` sit at `2i` and `2i+1` and its parent at `i // 2`;
the number of entries is `len(heap) - 1`.  Entries are modelled by their
comparison keys.  The sift loops of `insert` and `removeMin` are embedded
with a fuel bound: the sift-up index at least halves each iteration and the
sift-down index at least increments toward the size, so fuel `len(heap)`
always dominates the iteration count. -/

/-- The simultaneous Python swap `heap[i], heap[j] = heap[j], heap[i]` (both
right-hand sides are read before either cell is assigned). -/
def heapSwap (h : List Nat) (i j : Nat) : List Nat :=
  (h.set i (h.getD j 0)).set j (h.getD i 0)

theorem heapSwap_length (h : List Nat) (i j : Nat) :
    (heapSwap h i j).length = h.length := by
  simp [heapSwap]

theorem getD_set_self (l : List Nat) (i a : Nat) (hi : i < l.length) :
    (l.set i a).getD i 0 = a := by
  simp [List.getD_eq_getElem?_getD, List.getElem?_set_self, hi]

theorem getD_set_ne (l : List Nat) (i j a : Nat) (hij : i ≠ j) :
    (l.set i a).getD j 0 = l.getD j 0 := by
  simp [List.getD_eq_getElem?_getD, List.getElem?_set_ne hij]

theorem heapSwap_getD_fst (h : List Nat) (i j : Nat) (hi : i < h.length) :
    (heapSwap h i j).getD i 0 = h.getD j 0 := by
  by_cases hij : i = j
  · subst hij
    rw [heapSwap, getD_set_self _ _ _ (by simpa using hi)]
  · rw [heapSwap, getD_set_ne _ _ _ _ (fun hji => hij hji.symm),
      getD_set_self _ _ _ hi]

theorem heapSwap_getD_snd (h : List Nat) (i j : Nat) (hj : j < h.length) :
    (heapSwap h i j).getD j 0 = h.getD i 0 := by
  rw [heapSwap, getD_set_self _ _ _ (by simpa using hj)]

theorem heapSwap_getD_other (h : List Nat) (i j k : Nat)
    (hki : k ≠ i) (hkj : k ≠ j) :
    (heapSwap h i j).getD k 0 = h.getD k 0 := by
  rw [heapSwap, getD_set_ne _ _ _ _ hkj.symm, getD_set_ne _ _ _ _ hki.symm]

/-- The heap-order invariant documented in priority_queue.py: every non-root
entry (index `i ≥ 2`; index 0 is the unused dummy and index 1 the root) is at
least its parent at `i / 2`. -/
def HeapInv (h : List Nat) : Prop :=
  ∀ i, i < h.length → 2 ≤ i → h.getD (i / 2) 0 ≤ h.getD i 0

instance heapInvDecidable (h : List Nat) : Decidable (HeapInv h) := by
  unfold HeapInv
  infer_instance

namespace PriorityQueue

/-- Embedding of the sift-up loop of `PriorityQueue.insert`:
`while entryNo > 1 and entry < self.heap[parent(entryNo)]`, swap entry and
parent and continue from the parent.  During the loop `self.heap[entryNo]`
is always the inserted entry.  The index at least halves each round, so any
fuel at least the starting index suffices. -/
def siftUpAux : Nat → List Nat → Nat → List Nat
  | 0, h, _ => h
  | fuel + 1, h, e =>
    if 1 < e ∧ h.getD e 0 < h.getD (e / 2) 0 then
      siftUpAux fuel (heapSwap h e (e / 2)) (e / 2)
    else h

/-- Embedding of `PriorityQueue.insert`: append the entry at the last free
index (`len(self)` after the append) and sift it up. -/
def insert (h : List Nat) (x : Nat) : List Nat :=
  siftUpAux h.length (h ++ [x]) h.length

theorem siftUpAux_length :
    ∀ (fuel : Nat) (h : List Nat) (e : Nat),
      (siftUpAux fuel h e).length = h.length := by
  intro fuel
  induction fuel with
  | zero => intro h e; rfl
  | succ fuel ih =>
    intro h e
    simp only [siftUpAux]
    split
    · rw [ih, heapSwap_length]
    · rfl

theorem siftUpAux_heapInv :
    ∀ (fuel : Nat) (h : List Nat) (e : Nat),
      1 ≤ e → e ≤ fuel → e < h.length →
      (∀ i, i < h.length → 2 ≤ i → i ≠ e → h.getD (i / 2) 0 ≤ h.getD i 0) →
      (∀ i, i < h.length → i / 2 = e → 2 ≤ e → h.getD (e / 2) 0 ≤ h.getD i 0) →
      HeapInv (siftUpAux fuel h e) := by
  intro fuel
  induction fuel with
  | zero => intro h e he hfe; omega
  | succ fuel ih =>
    intro h e he hfe hlen hA hB
    simp only [siftUpAux]
    split
    case isTrue hg =>
      obtain ⟨he1, hlt⟩ := hg
      have hplen : e / 2 < h.length := by omega
      have hep : e ≠ e / 2 := by omega
      -- the swapped heap, with the entry now at the parent index e / 2
      apply ih (heapSwap h e (e / 2)) (e / 2) (by omega) (by omega)
        (by rw [heapSwap_length]; omega)
      · -- pairs other than (e/2, its parent) are ordered after the swap
        intro i hi h2i hip
        rw [heapSwap_length] at hi
        by_cases hie : i = e
        · -- the pair (e, e/2): the swap put the smaller entry above
          subst hie
          have h1 : (heapSwap h i (i / 2)).getD (i / 2) 0 = h.getD i 0 :=
            heapSwap_getD_snd h i (i / 2) hplen
          have h2 : (heapSwap h i (i / 2)).getD i 0 = h.getD (i / 2) 0 :=
            heapSwap_getD_fst h i (i / 2) hlen
          rw [h1, h2]
          exact le_of_lt hlt
        · by_cases hie2 : i / 2 = e
          · -- a child of e: dominated by the grandparent e/2, which now
            -- holds the sifted entry's old parent value
            have h1 : (heapSwap h e (e / 2)).getD i 0 = h.getD i 0 :=
              heapSwap_getD_other h e (e / 2) i hie (by omega)
            have h2 : (heapSwap h e (e / 2)).getD (i / 2) 0 = h.getD (e / 2) 0 := by
              rw [hie2]; exact heapSwap_getD_fst h e (e / 2) hlen
            rw [h1, h2]
            exact hB i hi hie2 (by omega)
          · by_cases hie3 : i / 2 = e / 2
            · -- the sibling of e: at least the old parent, which is above
              -- the sifted entry
              have h1 : (heapSwap h e (e / 2)).getD i 0 = h.getD i 0 :=
                heapSwap_getD_other h e (e / 2) i hie (by omega)
              have h2 : (heapSwap h e (e / 2)).getD (i / 2) 0 = h.getD e 0 := by
                rw [hie3]; exact heapSwap_getD_snd h e (e / 2) hplen
              rw [h1, h2]
              have := hA i hi h2i hie
              rw [hie3] at this
              exact le_trans (le_of_lt hlt) this
            · -- a pair not touching the swapped cells
              have h1 : (heapSwap h e (e / 2)).getD i 0 = h.getD i 0 :=
                heapSwap_getD_other h e (e / 2) i hie hip
              have h2 : (heapSwap h e (e / 2)).getD (i / 2) 0 = h.getD (i / 2) 0 :=
                heapSwap_getD_other h e (e / 2) (i / 2) hie2 hie3
              rw [h1, h2]
              exact hA i hi h2i hie
      · -- children of the new position e/2 are dominated by its parent
        intro i hi hi2 h2p
        rw [heapSwap_length] at hi
        have hpp : e / 2 / 2 ≠ e := by omega
        have hpp2 : e / 2 / 2 ≠ e / 2 := by omega
        have h0 : (heapSwap h e (e / 2)).getD (e / 2 / 2) 0 = h.getD (e / 2 / 2) 0 :=
          heapSwap_getD_other h e (e / 2) (e / 2 / 2) hpp hpp2
        by_cases hie : i = e
        · subst hie
          have h1 : (heapSwap h i (i / 2)).getD i 0 = h.getD (i / 2) 0 :=
            heapSwap_getD_fst h i (i / 2) hlen
          rw [h0, h1]
          exact hA (i / 2) hplen h2p (by omega)
        · have h1 : (heapSwap h e (e / 2)).getD i 0 = h.getD i 0 :=
            heapSwap_getD_other h e (e / 2) i hie (by omega)
          rw [h0, h1]
          have hstep := hA i hi (by omega) hie
          rw [hi2] at hstep
          exact le_trans (hA (e / 2) hplen h2p (by omega)) hstep
    case isFalse hg =>
      intro i hi h2i
      by_cases hie : i = e
      · subst hie
        have : ¬ h.getD i 0 < h.getD (i / 2) 0 := fun hc => hg ⟨by omega, hc⟩
        omega
      · exact hA i hi h2i hie

theorem insert_heapInv (h : List Nat) (x : Nat) (h1 : 1 ≤ h.length)
    (hinv : HeapInv h) : HeapInv (insert h x) := by
  unfold insert
  apply siftUpAux_heapInv h.length (h ++ [x]) h.length (by omega) le_rfl
    (by simp)
  · intro i hi h2i hie
    have hi' : i < h.length := by
      rw [List.length_append, List.length_cons, List.length_nil] at hi
      omega
    rw [List.getD_append _ _ _ _ hi', List.getD_append _ _ _ _ (by omega)]
    exact hinv i hi' h2i
  · intro i hi hi2 h2e
    rw [List.length_append, List.length_cons, List.length_nil] at hi
    omega

/-- Embedding of the sift-down loop of `PriorityQueue.removeMin`: while the
entry at `e` is greater than an existing child, swap with the smaller child
when both violate, otherwise with the violating child, and continue from the
child's position; the loop also stops when `e` reaches `len(self)`.  The
index strictly increases, so any fuel at least `len(heap)` suffices. -/
def siftDownAux : Nat → List Nat → Nat → List Nat
  | 0, h, _ => h
  | fuel + 1, h, e =>
    if e < h.length - 1 ∧
        ((2 * e ≤ h.length - 1 ∧ h.getD (2 * e) 0 < h.getD e 0) ∨
          (2 * e + 1 ≤ h.length - 1 ∧ h.getD (2 * e + 1) 0 < h.getD e 0)) then
      if (2 * e ≤ h.length - 1 ∧ h.getD (2 * e) 0 < h.getD e 0) ∧
          (2 * e + 1 ≤ h.length - 1 ∧ h.getD (2 * e + 1) 0 < h.getD e 0) then
        if h.getD (2 * e) 0 < h.getD (2 * e + 1) 0 then
          siftDownAux fuel (heapSwap h (2 * e) e) (2 * e)
        else
          siftDownAux fuel (heapSwap h (2 * e + 1) e) (2 * e + 1)
      else if 2 * e + 1 ≤ h.length - 1 ∧ h.getD (2 * e + 1) 0 < h.getD e 0 then
        siftDownAux fuel (heapSwap h (2 * e + 1) e) (2 * e + 1)
      else
        siftDownAux fuel (heapSwap h (2 * e) e) (2 * e)
    else h

theorem siftDownAux_length :
    ∀ (fuel : Nat) (h : List Nat) (e : Nat),
      (siftDownAux fuel h e).length = h.length := by
  intro fuel
  induction fuel with
  | zero => intro h e; rfl
  | succ fuel ih =>
    intro h e
    simp only [siftDownAux]
    split
    · split
      · split <;> rw [ih, heapSwap_length]
      · split <;> rw [ih, heapSwap_length]
    · rfl

/-- One sift-down swap step: if the entry at `e` is greater than the child
at `c` and `c` is at most every other child of `e`, swapping `c` and `e`
moves the heap-order exception from `e`'s children to `c`'s children. -/
theorem downInv_step (h : List Nat) (e c : Nat)
    (he : 1 ≤ e) (hc : c < h.length) (hc2 : c / 2 = e)
    (hlt : h.getD c 0 < h.getD e 0)
    (hsib : ∀ j, j < h.length → j / 2 = e → j ≠ c → h.getD c 0 ≤ h.getD j 0)
    (hA : ∀ i, i < h.length → 2 ≤ i → i / 2 ≠ e → h.getD (i / 2) 0 ≤ h.getD i 0)
    (hB : ∀ i, i < h.length → i / 2 = e → 2 ≤ e → h.getD (e / 2) 0 ≤ h.getD i 0) :
    (∀ i, i < h.length → 2 ≤ i → i / 2 ≠ c →
        (heapSwap h c e).getD (i / 2) 0 ≤ (heapSwap h c e).getD i 0) ∧
      (∀ i, i < h.length → i / 2 = c → 2 ≤ c →
        (heapSwap h c e).getD (c / 2) 0 ≤ (heapSwap h c e).getD i 0) := by
  have hce : c ≠ e := by omega
  have helen : e < h.length := by omega
  have hsc : (heapSwap h c e).getD c 0 = h.getD e 0 := heapSwap_getD_fst h c e hc
  have hse : (heapSwap h c e).getD e 0 = h.getD c 0 := heapSwap_getD_snd h c e helen
  constructor
  · intro i hi h2i hic
    by_cases hie : i = c
    · -- the pair (c, e): the smaller entry moved up
      subst hie
      rw [hc2, hsc, hse]
      exact le_of_lt hlt
    · by_cases hie2 : i / 2 = e
      · -- the other child of e: at least the swapped-up child value
        have hine : i ≠ e := by omega
        have h1 : (heapSwap h c e).getD i 0 = h.getD i 0 :=
          heapSwap_getD_other h c e i hie hine
        rw [hie2, hse, h1]
        exact hsib i hi hie2 hie
      · by_cases hieq : i = e
        · -- the pair (e, parent of e): use the grandparent bound at c
          subst hieq
          have hp1 : i / 2 ≠ c := by omega
          have hp2 : i / 2 ≠ i := by omega
          have h1 : (heapSwap h c i).getD (i / 2) 0 = h.getD (i / 2) 0 :=
            heapSwap_getD_other h c i (i / 2) hp1 hp2
          rw [h1, hse]
          exact hB c hc hc2 h2i
        · -- untouched pair
          have h1 : (heapSwap h c e).getD i 0 = h.getD i 0 :=
            heapSwap_getD_other h c e i hie hieq
          have h2 : (heapSwap h c e).getD (i / 2) 0 = h.getD (i / 2) 0 :=
            heapSwap_getD_other h c e (i / 2) hic hie2
          rw [h1, h2]
          exact hA i hi h2i hie2
  · intro i hi hic h2c
    have hid : i ≠ c := by omega
    have hine : i ≠ e := by omega
    have h1 : (heapSwap h c e).getD i 0 = h.getD i 0 :=
      heapSwap_getD_other h c e i hid hine
    rw [hc2, hse, h1]
    have := hA i hi (by omega) (by rw [hic]; exact hce)
    rw [hic] at this
    exact this

theorem siftDownAux_heapInv :
    ∀ (fuel : Nat) (h : List Nat) (e : Nat),
      1 ≤ e → h.length - 1 - e ≤ fuel →
      (∀ i, i < h.length → 2 ≤ i → i / 2 ≠ e → h.getD (i / 2) 0 ≤ h.getD i 0) →
      (∀ i, i < h.length → i / 2 = e → 2 ≤ e → h.getD (e / 2) 0 ≤ h.getD i 0) →
      HeapInv (siftDownAux fuel h e) := by
  intro fuel
  induction fuel with
  | zero =>
    intro h e he hfe hA hB
    simp only [siftDownAux]
    intro i hi h2i
    by_cases hie : i / 2 = e
    · omega
    · exact hA i hi h2i hie
  | succ fuel ih =>
    intro h e he hfe hA hB
    simp only [siftDownAux]
    split
    case isFalse hg =>
      intro i hi h2i
      by_cases hie : i / 2 = e
      · by_cases hesz : e < h.length - 1
        · have hnv : ¬ ((2 * e ≤ h.length - 1 ∧ h.getD (2 * e) 0 < h.getD e 0) ∨
              (2 * e + 1 ≤ h.length - 1 ∧ h.getD (2 * e + 1) 0 < h.getD e 0)) :=
            fun hv => hg ⟨hesz, hv⟩
          have hi2 : i = 2 * e ∨ i = 2 * e + 1 := by omega
          rcases hi2 with hi2 | hi2
          · have hnl : ¬ (2 * e ≤ h.length - 1 ∧ h.getD (2 * e) 0 < h.getD e 0) :=
              fun ha => hnv (Or.inl ha)
            have hle : 2 * e ≤ h.length - 1 := by omega
            have := fun hc => hnl ⟨hle, hc⟩
            rw [hi2, show 2 * e / 2 = e from by omega]
            omega
          · have hnr : ¬ (2 * e + 1 ≤ h.length - 1 ∧
                h.getD (2 * e + 1) 0 < h.getD e 0) :=
              fun ha => hnv (Or.inr ha)
            have hle : 2 * e + 1 ≤ h.length - 1 := by omega
            have := fun hc => hnr ⟨hle, hc⟩
            rw [hi2, show (2 * e + 1) / 2 = e from by omega]
            omega
        · omega
      · exact hA i hi h2i hie
    case isTrue hg =>
      obtain ⟨hesz, hviol⟩ := hg
      have hlen3 : 2 ≤ h.length := by omega
      split
      case isTrue hboth =>
        obtain ⟨⟨hlsz, hllt⟩, hrsz, hrlt⟩ := hboth
        split
        case isTrue hls =>
          -- left child is strictly smaller: swap left
          have hstep := downInv_step h e (2 * e) he (by omega) (by omega) hllt
            (fun j _ hj2 hjc => by
              have : j = 2 * e + 1 := by omega
              rw [this]
              exact le_of_lt hls)
            hA hB
          apply ih (heapSwap h (2 * e) e) (2 * e) (by omega)
            (by rw [heapSwap_length]; omega)
          · intro i hi
            rw [heapSwap_length] at hi
            exact hstep.1 i hi
          · intro i hi
            rw [heapSwap_length] at hi
            exact hstep.2 i hi
        case isFalse hls =>
          -- right child is minimal: swap right
          have hstep := downInv_step h e (2 * e + 1) he (by omega) (by omega) hrlt
            (fun j _ hj2 hjc => by
              have : j = 2 * e := by omega
              rw [this]
              exact le_of_not_lt hls)
            hA hB
          apply ih (heapSwap h (2 * e + 1) e) (2 * e + 1) (by omega)
            (by rw [heapSwap_length]; omega)
          · intro i hi
            rw [heapSwap_length] at hi
            exact hstep.1 i hi
          · intro i hi
            rw [heapSwap_length] at hi
            exact hstep.2 i hi
      case isFalse hboth =>
        split
        case isTrue hr =>
          -- only the right child violates
          obtain ⟨hrsz, hrlt⟩ := hr
          have hnl : ¬ (2 * e ≤ h.length - 1 ∧ h.getD (2 * e) 0 < h.getD e 0) :=
            fun ha => hboth ⟨ha, hrsz, hrlt⟩
          have hle : 2 * e ≤ h.length - 1 := by omega
          have hok : h.getD e 0 ≤ h.getD (2 * e) 0 := by
            have := fun hc => hnl ⟨hle, hc⟩
            omega
          have hstep := downInv_step h e (2 * e + 1) he (by omega) (by omega) hrlt
            (fun j _ hj2 hjc => by
              have : j = 2 * e := by omega
              rw [this]
              exact le_trans (le_of_lt hrlt) hok)
            hA hB
          apply ih (heapSwap h (2 * e + 1) e) (2 * e + 1) (by omega)
            (by rw [heapSwap_length]; omega)
          · intro i hi
            rw [heapSwap_length] at hi
            exact hstep.1 i hi
          · intro i hi
            rw [heapSwap_length] at hi
            exact hstep.2 i hi
        case isFalse hr =>
          -- only the left child violates
          have hl : 2 * e ≤ h.length - 1 ∧ h.getD (2 * e) 0 < h.getD e 0 :=
            hviol.resolve_right hr
          obtain ⟨hlsz, hllt⟩ := hl
          have hstep := downInv_step h e (2 * e) he (by omega) (by omega) hllt
            (fun j hj hj2 hjc => by
              have hj1 : j = 2 * e + 1 := by omega
              have hjsz : 2 * e + 1 ≤ h.length - 1 := by omega
              have hok : h.getD e 0 ≤ h.getD (2 * e + 1) 0 := by
                have := fun hc => hr ⟨hjsz, hc⟩
                omega
              rw [hj1]
              exact le_trans (le_of_lt hllt) hok)
            hA hB
          apply ih (heapSwap h (2 * e) e) (2 * e) (by omega)
            (by rw [heapSwap_length]; omega)
          · intro i hi
            rw [heapSwap_length] at hi
            exact hstep.1 i hi
          · intro i hi
            rw [heapSwap_length] at hi
            exact hstep.2 i hi

/-- Embedding of `PriorityQueue.removeMin`: return `None` on an empty queue;
with one entry pop and return it; otherwise save the root, move the popped
last entry into the root and sift it down from index 1. -/
def removeMin (h : List Nat) : Option Nat × List Nat :=
  if h.length - 1 = 0 then (none, h)
  else if h.length - 1 = 1 then (some (h.getD (h.length - 1) 0), h.dropLast)
  else
    let save := h.getD 1 0
    let h1 := h.dropLast.set 1 (h.getD (h.length - 1) 0)
    (some save, siftDownAux h1.length h1 1)

end PriorityQueue

theorem getD_dropLast (l : List Nat) (k : Nat) (hk : k < l.length - 1) :
    l.dropLast.getD k 0 = l.getD k 0 := by
  rw [List.getD_eq_getElem?_getD, List.getD_eq_getElem?_getD,
    List.getElem?_dropLast, if_pos hk]

theorem removeMin_heapInv (h : List Nat) (hinv : HeapInv h) :
    HeapInv (PriorityQueue.removeMin h).2 := by
  unfold PriorityQueue.removeMin
  split
  · exact hinv
  · case isFalse h0 =>
    split
    · case isTrue h1 =>
      intro i hi h2i
      rw [List.length_dropLast] at hi
      omega
    · case isFalse h1 =>
      have hlen : 3 ≤ h.length := by omega
      apply PriorityQueue.siftDownAux_heapInv _ _ 1 le_rfl (by omega)
      · intro i hi h2i hie
        simp only [List.length_set, List.length_dropLast] at hi
        have hne_i : 1 ≠ i := by omega
        have hne_p : 1 ≠ i / 2 := fun hc => hie hc.symm
        rw [getD_set_ne _ _ _ _ hne_i, getD_set_ne _ _ _ _ hne_p,
          getD_dropLast _ _ hi, getD_dropLast _ _ (by omega)]
        exact hinv i (by omega) h2i
      · intro i hi hi2 h21
        omega

/-- A heap operation: `insert(entry)` with a key, or `removeMin()`. -/
inductive HeapOp where
  | ins (x : Nat)
  | rm
deriving DecidableEq, Repr

/-- Apply one heap operation to the internal heap list. -/
def applyHeapOp (h : List Nat) : HeapOp → List Nat
  | .ins x => PriorityQueue.insert h x
  | .rm => (PriorityQueue.removeMin h).2

/-- Run a sequence of operations starting from the empty queue
(`self.heap = [None,]`, the dummy slot modelled by key 0). -/
def runHeapOps (ops : List HeapOp) : List Nat := ops.foldl applyHeapOp [0]

theorem removeMin_length_pos (h : List Nat) (hlen : 1 ≤ h.length) :
    1 ≤ (PriorityQueue.removeMin h).2.length := by
  unfold PriorityQueue.removeMin
  split
  · exact hlen
  · split
    · rw [List.length_dropLast]; omega
    · rw [PriorityQueue.siftDownAux_length]
      simp only [List.length_set, List.length_dropLast]
      omega

theorem insert_length (h : List Nat) (x : Nat) :
    (PriorityQueue.insert h x).length = h.length + 1 := by
  unfold PriorityQueue.insert
  rw [PriorityQueue.siftUpAux_length]
  simp

theorem runHeapOps_aux (ops : List HeapOp) :
    ∀ h : List Nat, 1 ≤ h.length → HeapInv h →
      1 ≤ (ops.foldl applyHeapOp h).length ∧ HeapInv (ops.foldl applyHeapOp h) := by
  induction ops with
  | nil => intro h hlen hinv; exact ⟨hlen, hinv⟩
  | cons op rest ih =>
    intro h hlen hinv
    rw [List.foldl_cons]
    cases op with
    | ins x =>
      apply ih
      · rw [applyHeapOp, insert_length]; omega
      · exact PriorityQueue.insert_heapInv h x hlen hinv
    | rm =>
      apply ih
      · exact removeMin_length_pos h hlen
      · exact removeMin_heapInv h hinv

/-- C6: heap-order invariant: starting from the empty heap, after any
sequence of `insert` and `removeMin` operations, every non-root node's key is
at least its parent's key (children of node `i` at `2i` and `2i+1`, parent at
`i / 2`, index 0 unused). -/
theorem heap_order_invariant (ops : List HeapOp) :
    ∀ i, i < (runHeapOps ops).length → 2 ≤ i →
      (runHeapOps ops).getD (i / 2) 0 ≤ (runHeapOps ops).getD i 0 :=
  (runHeapOps_aux ops [0] (by decide) (by decide)).2

theorem heap_order_invariant_witness :
    (runHeapOps [.ins 5, .ins 1, .ins 3, .rm]).getD (2 / 2) 0
      ≤ (runHeapOps [.ins 5, .ins 1, .ins 3, .rm]).getD 2 0 :=
  heap_order_invariant [.ins 5, .ins 1, .ins 3, .rm] 2 (by decide) (by decide)

/-! Multiset facts about `removeMin`, used for the sorted-iteration claim. -/

theorem swap_perm_aux :
    ∀ (t : List Nat) (k x : Nat), k < t.length →
      (t.getD k 0 :: t.set k x).Perm (x :: t) := by
  intro t
  induction t with
  | nil => intro k x hk; simp at hk
  | cons a s ih =>
    intro k x hk
    cases k with
    | zero => exact List.Perm.swap x a s
    | succ k =>
      rw [List.getD_cons_succ]
      have h1 : (s.getD k 0 :: (a :: s).set (k + 1) x).Perm
          (a :: s.getD k 0 :: s.set k x) := List.Perm.swap a _ _
      have h2 : (a :: s.getD k 0 :: s.set k x).Perm (a :: x :: s) :=
        (ih k x (by simpa using Nat.lt_of_succ_lt_succ (by simpa using hk))).cons a
      exact (h1.trans h2).trans (List.Perm.swap x a s)

theorem heapSwap_perm (h : List Nat) (i j : Nat) (hij : i ≠ j)
    (hi : i < h.length) (hj : j < h.length) : (heapSwap h i j).Perm h := by
  have hA := swap_perm_aux (h.set i (h.getD j 0)) j (h.getD i 0)
    (by simpa using hj)
  rw [getD_set_ne _ _ _ _ hij] at hA
  have hB := swap_perm_aux h i (h.getD j 0) hi
  have := hA.trans hB
  exact this.cons_inv

theorem siftDownAux_perm :
    ∀ (fuel : Nat) (h : List Nat) (e : Nat), 1 ≤ e →
      (PriorityQueue.siftDownAux fuel h e).Perm h := by
  intro fuel
  induction fuel with
  | zero => intro h e _; exact List.Perm.refl _
  | succ fuel ih =>
    intro h e he
    simp only [PriorityQueue.siftDownAux]
    split
    case isTrue hg =>
      obtain ⟨hesz, hviol⟩ := hg
      split
      case isTrue hboth =>
        obtain ⟨⟨hlsz, _⟩, hrsz, _⟩ := hboth
        split
        · exact (ih _ _ (by omega)).trans
            (heapSwap_perm h (2 * e) e (by omega) (by omega) (by omega))
        · exact (ih _ _ (by omega)).trans
            (heapSwap_perm h (2 * e + 1) e (by omega) (by omega) (by omega))
      case isFalse hboth =>
        split
        case isTrue hr =>
          obtain ⟨hrsz, _⟩ := hr
          exact (ih _ _ (by omega)).trans
            (heapSwap_perm h (2 * e + 1) e (by omega) (by omega) (by omega))
        case isFalse hr =>
          obtain ⟨hlsz, _⟩ := hviol.resolve_right hr
          exact (ih _ _ (by omega)).trans
            (heapSwap_perm h (2 * e) e (by omega) (by omega) (by omega))
    case isFalse hg => exact List.Perm.refl _

theorem siftDownAux_getD_zero :
    ∀ (fuel : Nat) (h : List Nat) (e : Nat), 1 ≤ e →
      (PriorityQueue.siftDownAux fuel h e).getD 0 0 = h.getD 0 0 := by
  intro fuel
  induction fuel with
  | zero => intro h e _; rfl
  | succ fuel ih =>
    intro h e he
    simp only [PriorityQueue.siftDownAux]
    split
    case isTrue hg =>
      split
      case isTrue hboth =>
        split
        · rw [ih _ _ (by omega),
            heapSwap_getD_other h (2 * e) e 0 (by omega) (by omega)]
        · rw [ih _ _ (by omega),
            heapSwap_getD_other h (2 * e + 1) e 0 (by omega) (by omega)]
      case isFalse hboth =>
        split
        · rw [ih _ _ (by omega),
            heapSwap_getD_other h (2 * e + 1) e 0 (by omega) (by omega)]
        · rw [ih _ _ (by omega),
            heapSwap_getD_other h (2 * e) e 0 (by omega) (by omega)]
    case isFalse hg => rfl

theorem removeMin_fst (h : List Nat) (hlen : 2 ≤ h.length) :
    (PriorityQueue.removeMin h).1 = some (h.getD 1 0) := by
  unfold PriorityQueue.removeMin
  rw [if_neg (by omega)]
  split
  case isTrue h1 => rw [h1]
  case isFalse h1 => rfl

theorem removeMin_snd_len (h : List Nat) (hlen : 2 ≤ h.length) :
    (PriorityQueue.removeMin h).2.length = h.length - 1 := by
  unfold PriorityQueue.removeMin
  rw [if_neg (by omega)]
  split
  · rw [List.length_dropLast]
  · rw [PriorityQueue.siftDownAux_length]
    simp

theorem removeMin_snd_big (h : List Nat) (hlen : 3 ≤ h.length) :
    (PriorityQueue.removeMin h).2
      = PriorityQueue.siftDownAux
          (h.dropLast.set 1 (h.getD (h.length - 1) 0)).length
          (h.dropLast.set 1 (h.getD (h.length - 1) 0)) 1 := by
  unfold PriorityQueue.removeMin
  rw [if_neg (by omega), if_neg (by omega)]

theorem tail_set_one (l : List Nat) (v : Nat) :
    (l.set 1 v).tail = l.tail.set 0 v := by
  rcases l with _ | ⟨a, t⟩ <;> rfl

theorem tail_dropLast (l : List Nat) : l.dropLast.tail = l.tail.dropLast := by
  rcases l with _ | ⟨a, t⟩
  · rfl
  · rcases t with _ | ⟨b, s⟩ <;> rfl

theorem getD_one_tail (l : List Nat) : l.getD 1 0 = l.tail.getD 0 0 := by
  rcases l with _ | ⟨a, t⟩ <;> rfl

theorem getD_last_tail (l : List Nat) (hl : 2 ≤ l.length) :
    l.getD (l.length - 1) 0 = l.tail.getD (l.tail.length - 1) 0 := by
  rcases l with _ | ⟨a, t⟩
  · simp at hl
  · simp only [List.tail_cons, List.length_cons]
    have ht : 1 ≤ t.length := by
      simp only [List.length_cons] at hl
      omega
    rw [show t.length + 1 - 1 = (t.length - 1) + 1 from by omega,
      List.getD_cons_succ]

theorem dropLast_cons_ne (a : Nat) (t : List Nat) (ht : t ≠ []) :
    (a :: t).dropLast = a :: t.dropLast := by
  rcases t with _ | ⟨x, s⟩
  · cases ht rfl
  · rfl

theorem last_cons_dropLast_perm (l : List Nat) (hl : l ≠ []) :
    (l.getD (l.length - 1) 0 :: l.dropLast).Perm l := by
  induction l with
  | nil => cases hl rfl
  | cons a t ih =>
    by_cases ht : t = []
    · subst ht
      exact List.Perm.refl [a]
    · have htlen : 1 ≤ t.length := List.length_pos.mpr ht
      rw [List.length_cons, show t.length + 1 - 1 = (t.length - 1) + 1 from by omega,
        List.getD_cons_succ, dropLast_cons_ne a t ht]
      have h1 : (t.getD (t.length - 1) 0 :: a :: t.dropLast).Perm
          (a :: t.getD (t.length - 1) 0 :: t.dropLast) := List.Perm.swap a _ _
      exact h1.trans ((ih ht).cons a)

theorem root_last_perm (T : List Nat) (hT : 2 ≤ T.length) :
    (T.getD 0 0 :: T.dropLast.set 0 (T.getD (T.length - 1) 0)).Perm T := by
  rcases T with _ | ⟨x, rest⟩
  · simp at hT
  · have hrest : rest ≠ [] := by
      intro hh
      rw [hh] at hT
      simp at hT
    have hrlen : 1 ≤ rest.length := List.length_pos.mpr hrest
    rw [dropLast_cons_ne x rest hrest, List.getD_cons_zero, List.length_cons,
      show rest.length + 1 - 1 = (rest.length - 1) + 1 from by omega,
      List.getD_cons_succ]
    show (x :: (rest.getD (rest.length - 1) 0 :: rest.dropLast)).Perm (x :: rest)
    exact (last_cons_dropLast_perm rest hrest).cons x

theorem perm_tail_of_head_eq (l l' : List Nat) (hp : l.Perm l')
    (hh : l.getD 0 0 = l'.getD 0 0) (hne : l' ≠ []) : l.tail.Perm l'.tail := by
  rcases l' with _ | ⟨b, t'⟩
  · cases hne rfl
  · rcases l with _ | ⟨a, t⟩
    · have := hp.length_eq
      simp at this
    · simp only [List.getD_cons_zero] at hh
      subst hh
      simp only [List.tail_cons]
      exact hp.cons_inv

theorem removeMin_perm (h : List Nat) (hlen : 2 ≤ h.length) :
    (h.getD 1 0 :: (PriorityQueue.removeMin h).2.tail).Perm h.tail := by
  by_cases hl2 : h.length - 1 = 1
  · -- exactly one stored entry
    have hl : h.length = 2 := by omega
    unfold PriorityQueue.removeMin
    rw [if_neg (by omega), if_pos hl2]
    rcases h with _ | ⟨d, t⟩
    · simp at hl
    · rcases t with _ | ⟨a, s⟩
      · simp at hl
      · rcases s with _ | ⟨y, u⟩
        · exact List.Perm.refl [a]
        · simp at hl
  · have hlen3 : 3 ≤ h.length := by omega
    rw [removeMin_snd_big h hlen3]
    have hh1len : (h.dropLast.set 1 (h.getD (h.length - 1) 0)).length
        = h.length - 1 := by simp
    have hperm := siftDownAux_perm
      (h.dropLast.set 1 (h.getD (h.length - 1) 0)).length
      (h.dropLast.set 1 (h.getD (h.length - 1) 0)) 1 le_rfl
    have hhead := siftDownAux_getD_zero
      (h.dropLast.set 1 (h.getD (h.length - 1) 0)).length
      (h.dropLast.set 1 (h.getD (h.length - 1) 0)) 1 le_rfl
    have htl := perm_tail_of_head_eq _ _ hperm hhead
      (List.length_pos.mp (by rw [hh1len]; omega))
    refine List.Perm.trans (List.Perm.cons _ htl) ?_
    rw [tail_set_one, tail_dropLast, getD_one_tail, getD_last_tail h hlen]
    exact root_last_perm h.tail (by rw [List.length_tail]; omega)

theorem root_le (h : List Nat) (hinv : HeapInv h) :
    ∀ i, 1 ≤ i → i < h.length → h.getD 1 0 ≤ h.getD i 0 := by
  intro i
  induction i using Nat.strong_induction_on with
  | _ i ih =>
    intro h1i hi
    by_cases hi1 : i = 1
    · subst hi1
      exact le_refl _
    · exact le_trans (ih (i / 2) (by omega) (by omega) (by omega))
        (hinv i hi (by omega))

theorem root_le_mem (h : List Nat) (hinv : HeapInv h) :
    ∀ y ∈ h.tail, h.getD 1 0 ≤ y := by
  intro y hy
  obtain ⟨j, hj, hjy⟩ := List.mem_iff_getElem.mp hy
  have hjlen : j + 1 < h.length := by
    rw [List.length_tail] at hj
    omega
  have h1 : h.tail.getD j 0 = y := by
    rw [List.getD_eq_getElem _ _ hj, hjy]
  have h2 : h.tail.getD j 0 = h.getD (j + 1) 0 := by
    rcases h with _ | ⟨a, t⟩ <;> rfl
  rw [← h1, h2]
  exact root_le h hinv (j + 1) (by omega) hjlen

theorem tail_eq_nil_of_length_le_one (h : List Nat) (hl : h.length ≤ 1) :
    h.tail = [] := by
  rcases h with _ | ⟨a, t⟩
  · rfl
  · simp only [List.length_cons] at hl
    simp only [List.tail_cons]
    exact List.length_eq_zero.mp (by omega)

namespace PriorityQueue

/-- The loop of `PriorityQueue.__iter__` on the cloned heap: `removeMin`
until it signals empty, yielding each removed entry.  (The entries of this
program are `NewTopic` objects, which are always truthy, so `while t:` tests
exactly for the `None` returned on emptiness.)  Each round removes one
entry, so fuel `len(heap)` dominates the iteration count. -/
def iterAux : Nat → List Nat → List Nat
  | 0, _ => []
  | fuel + 1, h =>
    match removeMin h with
    | (none, _) => []
    | (some t, h') => t :: iterAux fuel h'

/-- Embedding of `PriorityQueue.__iter__`: copy the internal heap and drain
the copy with `removeMin`.  The embedding is a pure function of the heap
list, so the original heap value is untouched by construction, exactly as
the source only mutates the clone. -/
def iter (h : List Nat) : List Nat := iterAux h.length h

end PriorityQueue

theorem iterAux_sorted_perm :
    ∀ (fuel : Nat) (h : List Nat), HeapInv h → h.length ≤ fuel + 1 →
      List.Sorted (· ≤ ·) (PriorityQueue.iterAux fuel h) ∧
        (PriorityQueue.iterAux fuel h).Perm h.tail := by
  intro fuel
  induction fuel with
  | zero =>
    intro h hinv hlen
    refine ⟨List.sorted_nil, ?_⟩
    rw [tail_eq_nil_of_length_le_one h hlen]
    exact List.Perm.refl _
  | succ fuel ih =>
    intro h hinv hlen
    simp only [PriorityQueue.iterAux]
    rcases hrm : PriorityQueue.removeMin h with ⟨o, h'⟩
    cases o with
    | none =>
      show List.Sorted (· ≤ ·) ([] : List Nat) ∧ ([] : List Nat).Perm h.tail
      have hsmall : h.length ≤ 1 := by
        by_contra hbig
        have := removeMin_fst h (by omega)
        rw [hrm] at this
        simp at this
      refine ⟨List.sorted_nil, ?_⟩
      rw [tail_eq_nil_of_length_le_one h hsmall]
    | some t =>
      show List.Sorted (· ≤ ·) (t :: PriorityQueue.iterAux fuel h') ∧
        (t :: PriorityQueue.iterAux fuel h').Perm h.tail
      have hlen2 : 2 ≤ h.length := by
        by_contra hsmall
        have h0 : h.length - 1 = 0 := by omega
        unfold PriorityQueue.removeMin at hrm
        rw [if_pos h0] at hrm
        simp at hrm
      have ht : t = h.getD 1 0 := by
        have := removeMin_fst h hlen2
        rw [hrm] at this
        exact Option.some.inj this
      have hinv' : HeapInv h' := by
        have := removeMin_heapInv h hinv
        rw [hrm] at this
        exact this
      have hlen' : h'.length = h.length - 1 := by
        have := removeMin_snd_len h hlen2
        rw [hrm] at this
        exact this
      obtain ⟨hs, hp⟩ := ih h' hinv' (by omega)
      have hperm1 : (h.getD 1 0 :: h'.tail).Perm h.tail := by
        have := removeMin_perm h hlen2
        rw [hrm] at this
        exact this
      constructor
      · rw [List.sorted_cons]
        refine ⟨?_, hs⟩
        intro y hy
        have hy' : y ∈ h'.tail := hp.mem_iff.mp hy
        have hy2 : y ∈ h.tail := hperm1.mem_iff.mp (List.mem_cons_of_mem _ hy')
        rw [ht]
        exact root_le_mem h hinv y hy2
      · refine List.Perm.trans (List.Perm.cons t hp) ?_
        rw [ht]
        exact hperm1

/-- C7: for every heap list satisfying the heap-order invariant,
non-destructive iteration (`PriorityQueue.__iter__`: clone, then `removeMin`
until empty) yields an ascending sequence whose multiset is exactly the
stored entries (the heap list without its dummy slot 0) — i.e. the same
ascending sequence as a reference sort of the same multiset of keys.  The
iteration is a pure function of the heap value, mirroring that the source
drains only the clone and leaves the original heap array unchanged. -/
theorem iter_sorted_nondestructive (h : List Nat) (hinv : HeapInv h) :
    List.Sorted (· ≤ ·) (PriorityQueue.iter h) ∧
      (PriorityQueue.iter h).Perm h.tail :=
  iterAux_sorted_perm h.length h hinv (by omega)

theorem iter_sorted_nondestructive_witness :
    List.Sorted (· ≤ ·) (PriorityQueue.iter [0, 1, 3, 2]) ∧
      (PriorityQueue.iter [0, 1, 3, 2]).Perm ([0, 1, 3, 2] : List Nat).tail :=
  iter_sorted_nondestructive [0, 1, 3, 2] (by decide)
